import Mathlib

/-!
# Verification of the Bounce scene-to-measure alignment core

Shallow embedding of `src/align_scenes.py` (the Alignment Planner and the
plan-writing block) and `src/assemble_video.py` (the Plan Record loader and
the audio-mux branch selection), with theorems settling the frozen claims.

Modelling conventions:
* Python floats are idealised as rationals (`ℚ`); `f"{x:.6f}"` formatting is
  modelled as rounding `x * 10^6` to the nearest integer.
* Text is modelled as `List Char`; a file is a `List (List Char)` of lines
  (newline handling is part of I/O, outside the embedded core).
* Python's `try/except (ValueError, IndexError)` around line parsing is
  modelled by `Option`-valued parsers: a failed parse skips the line.
-/

/-! ## Character and string utilities (models of `str.strip`, `str.split`,
`int(...)`, `float(...)`, and `f"...:.6f"` formatting) -/

/-- Left-trim: model of the left half of Python `str.strip()`. -/
def trimLeft (s : List Char) : List Char := s.dropWhile Char.isWhitespace

/-- Right-trim: model of the right half of Python `str.strip()`. -/
def trimRight (s : List Char) : List Char := (s.reverse.dropWhile Char.isWhitespace).reverse

/-- Model of Python `str.strip()` (whitespace on both ends removed). -/
def trim (s : List Char) : List Char := trimRight (trimLeft s)

/-- Model of Python `str.split(c)` for a one-character separator: splits into
the (possibly empty) fields between occurrences of `c`; never returns `[]`. -/
def splitOnChar (c : Char) : List Char → List (List Char)
  | [] => [[]]
  | x :: xs =>
    if x = c then [] :: splitOnChar c xs
    else
      match splitOnChar c xs with
      | [] => [[x]]
      | f :: r => (x :: f) :: r

/-- Numeric value of a big-endian decimal digit string (used by the models of
`int(...)` and `float(...)`; callers guard that all characters are digits). -/
def digitsVal (s : List Char) : ℕ := s.foldl (fun a c => 10 * a + (c.toNat - 48)) 0

/-- Model of Python `int(s)` on an already-stripped field: optional sign
followed by a nonempty digit string, else a `ValueError` (`none`). -/
def parseIntOpt (s : List Char) : Option ℤ :=
  if s.head? = some '-' then
    if s.tail ≠ [] ∧ ∀ c ∈ s.tail, c.isDigit = true then some (-(digitsVal s.tail : ℤ)) else none
  else if s.head? = some '+' then
    if s.tail ≠ [] ∧ ∀ c ∈ s.tail, c.isDigit = true then some ((digitsVal s.tail : ℤ)) else none
  else
    if s ≠ [] ∧ ∀ c ∈ s, c.isDigit = true then some ((digitsVal s : ℤ)) else none

/-- Unsigned part of the model of Python `float(s)`: digits, optionally a
point and more digits, with at least one digit present overall.  (Exponent
and `inf`/`nan` forms, which this pipeline never emits, are not modelled.) -/
def parseUFloatOpt (s : List Char) : Option ℚ :=
  let ip := s.takeWhile Char.isDigit
  let rest := s.dropWhile Char.isDigit
  if rest = [] then
    if ip = [] then none else some ((digitsVal ip : ℚ))
  else if rest.head? = some '.' ∧ (∀ c ∈ rest.tail, c.isDigit = true) ∧
          (ip ≠ [] ∨ rest.tail ≠ []) then
    some ((digitsVal ip : ℚ) + (digitsVal rest.tail : ℚ) / 10 ^ rest.tail.length)
  else none

/-- Model of Python `float(s)` on an already-stripped field. -/
def parseFloatOpt (s : List Char) : Option ℚ :=
  if s.head? = some '-' then (parseUFloatOpt s.tail).map Neg.neg
  else if s.head? = some '+' then parseUFloatOpt s.tail
  else parseUFloatOpt s

/-- Little-endian decimal digits of `n`, by structural recursion on a fuel
bound (`Nat.digits 10` itself is defined by well-founded recursion; this
executable twin is proved equal to it below). -/
def natDigitsAux : ℕ → ℕ → List ℕ
  | 0, _ => []
  | _ + 1, 0 => []
  | fuel + 1, n + 1 => ((n + 1) % 10) :: natDigitsAux fuel ((n + 1) / 10)

/-- Little-endian decimal digits of `n` (empty for `0`). -/
def natDigits (n : ℕ) : List ℕ := natDigitsAux n n

/-- Big-endian decimal digit characters of `n` (empty for `0`). -/
def natChars (n : ℕ) : List Char := ((natDigits n).map fun d => Char.ofNat (48 + d)).reverse

/-- Decimal rendering of a natural number (as Python `str`/`f"{n}"`). -/
def fmtNat (n : ℕ) : List Char := if n = 0 then ['0'] else natChars n

/-- The six-digit, zero-padded fractional block of `f"{x:.6f}"`
(argument is the fractional part scaled by `10^6`, so `< 10^6`). -/
def fracChars (f : ℕ) : List Char := List.replicate (6 - (natChars f).length) '0' ++ natChars f

/-- Model of Python `f"{x:.6f}"` on the idealised rational value: round
`x·10^6` to the nearest integer and print sign, integer part, `.`, and a
six-digit fraction.  (CPython rounds the underlying binary double half-to-even;
on the idealised rational model we use nearest-integer rounding.) -/
def fmt6 (q : ℚ) : List Char :=
  let n : ℤ := round (q * 1000000)
  (if n < 0 then ['-'] else []) ++
    fmtNat (n.natAbs / 1000000) ++ '.' :: fracChars (n.natAbs % 1000000)

/-- The value actually written by `f"{x:.6f}"`: `x` rounded to six fractional
digits. -/
def round6 (q : ℚ) : ℚ := (round (q * 1000000) : ℚ) / 1000000

/-- Python `int(q)` truncates toward zero. -/
def pyInt (q : ℚ) : ℤ := if q < 0 then ⌈q⌉ else ⌊q⌋

/-! ## The Alignment Planner (`src/align_scenes.py`) -/

/-- One row of the planner's `scene_data` (the dict built in
`align_scenes_to_measures`), field names and order as in the source. -/
structure SceneDatum where
  file : List Char
  part : ℕ
  total_parts : ℕ
  start_offset : ℚ
  original_duration : ℚ
  trim_to : ℚ
  time_lost : ℚ
  closest_measure : ℕ
  measure_time : ℚ
deriving DecidableEq, Repr

/-- Loop body of `find_closest_measure_before`: scan forward keeping the last
measure `≤ target`, stopping at the first exceedance (`break`). -/
def fcmbGo (target : ℚ) : ℕ → Option (ℕ × ℚ) → List ℚ → Option (ℕ × ℚ)
  | _, best, [] => best
  | i, best, m :: ms => if m ≤ target then fcmbGo target (i + 1) (some (i, m)) ms else best

/-- `find_closest_measure_before(target_time, measures)` from
`src/align_scenes.py`: the `(None, None)` return is modelled as `none`. -/
def find_closest_measure_before (target_time : ℚ) (measures : List ℚ) : Option (ℕ × ℚ) :=
  fcmbGo target_time 0 none measures

/-- Building one `scene_info` dict from the outcome of
`find_closest_measure_before` (both branches of `align_scenes_to_measures`
build the identical shape).  In the source, the no-measure branch assigns
`closest_measure_idx = 0` and the record then stores
`closest_measure_idx + 1 if closest_measure_idx is not None else 0`; since the
index was just reassigned to the integer `0`, the `else 0` arm is unreachable
and the stored value is `0 + 1`.  This is modelled verbatim. -/
def mkSceneInfo (name : List Char) (part total_parts : ℕ) (start_offset part_duration : ℚ)
    (r : Option (ℕ × ℚ)) : SceneDatum :=
  match r with
  | some (idx, t) =>
      { file := name, part := part, total_parts := total_parts,
        start_offset := start_offset, original_duration := part_duration,
        trim_to := t, time_lost := part_duration - t,
        closest_measure := idx + 1, measure_time := t }
  | none =>
      { file := name, part := part, total_parts := total_parts,
        start_offset := start_offset, original_duration := part_duration,
        trim_to := part_duration, time_lost := 0,
        closest_measure := 0 + 1, measure_time := 0 }

/-- `avg_measure_duration` as computed in `align_scenes_to_measures`
(mean of consecutive differences; only consulted when `len(measures) > 1`). -/
def avg_measure_duration (measures : List ℚ) : ℚ :=
  let measure_intervals := List.zipWith (fun a b => b - a) measures measures.tail
  measure_intervals.sum / (measure_intervals.length : ℚ)

/-- `max_scene_duration`, defined exactly when `len(measures) > 1` and
`max_measures` is truthy (Python `if max_measures:`—`0` counts as unset). -/
def max_scene_duration (measures : List ℚ) (max_measures : Option ℕ) : Option ℚ :=
  match max_measures with
  | some mm => if 1 < measures.length ∧ mm ≠ 0 then
      some ((mm : ℚ) * avg_measure_duration measures) else none
  | none => none

/-- The splitting branch of `align_scenes_to_measures`:
`num_parts = int(duration / max_scene_duration) + 1`, then for each
`part in range(num_parts)` carve `[part·M, min((part+1)·M, duration))`. -/
def splitSceneParts (measures : List ℚ) (msd : ℚ) (name : List Char) (duration : ℚ) :
    List SceneDatum :=
  let num_parts : ℤ := pyInt (duration / msd) + 1
  (List.range num_parts.toNat).map fun (part : ℕ) =>
    let start_time : ℚ := (part : ℚ) * msd
    let end_time : ℚ := min (((part : ℚ) + 1) * msd) duration
    let part_duration : ℚ := end_time - start_time
    mkSceneInfo name (part + 1) num_parts.toNat start_time part_duration
      (find_closest_measure_before part_duration measures)

/-- Per-scene body of `align_scenes_to_measures`: split when a
`max_scene_duration` exists and the scene exceeds it, else emit the scene as a
single whole part.  (When `max_measures` is truthy but fewer than two measures
exist, the source would hit a `NameError`; that unreachable-by-spec corner is
not modelled and falls into the unsplit branch.) -/
def planScene (measures : List ℚ) (msd : Option ℚ) (name : List Char) (duration : ℚ) :
    List SceneDatum :=
  match msd with
  | some m =>
      if duration > m then splitSceneParts measures m name duration
      else [mkSceneInfo name 1 1 0 duration (find_closest_measure_before duration measures)]
  | none => [mkSceneInfo name 1 1 0 duration (find_closest_measure_before duration measures)]

/-- `align_scenes_to_measures(scenes_dir, measures_file, ...)` reduced to its
pure core: measures and the probed `(name, duration)` inventory in, plan out.
An empty inventory takes the early `return` (`none`): no plan is built and no
plan file is written. -/
def align_scenes_to_measures (measures : List ℚ) (max_measures : Option ℕ)
    (scene_files : List (List Char × ℚ)) : Option (List SceneDatum) :=
  if scene_files = [] then none
  else
    let msd := max_scene_duration measures max_measures
    some (scene_files.map (fun s => planScene measures msd s.1 s.2)).flatten

/-! ## The Plan Record codec
Writer: the `with open(output_file, 'w')` block of `align_scenes_to_measures`
(`src/align_scenes.py`, lines 192–204).
Reader: `load_scene_plan` (`src/assemble_video.py`, lines 14–69). -/

/-- One entry as returned by `load_scene_plan` (its `scene_info` dict; note the
reader's key `measure_number` for the writer's `closest_measure` column, and
that Python `int(...)` may produce negative values on hand-edited files). -/
structure SceneInfo where
  file : List Char
  part : ℤ
  total_parts : ℤ
  start_offset : ℚ
  original_duration : ℚ
  trim_to : ℚ
  measure_number : ℤ
  measure_time : ℚ
  time_lost : ℚ
deriving DecidableEq, Repr

/-- One iteration of the reader loop of `load_scene_plan`: strip the line,
skip blanks and `#` comments, split on commas, strip each field, then parse
the 9-field shape, else the legacy 6-field shape, else skip; any field that
fails numeric parsing skips the whole line (the `except (ValueError,
IndexError)` handler). -/
def parsePlanLine (raw : List Char) : Option SceneInfo :=
  let line := trim raw
  if line = [] ∨ line.head? = some '#' then none
  else
    let parts := (splitOnChar ',' line).map trim
    if 9 ≤ parts.length then
      match parseIntOpt (parts.getD 1 []), parseIntOpt (parts.getD 2 []),
            parseFloatOpt (parts.getD 3 []), parseFloatOpt (parts.getD 4 []),
            parseFloatOpt (parts.getD 5 []), parseIntOpt (parts.getD 6 []),
            parseFloatOpt (parts.getD 7 []), parseFloatOpt (parts.getD 8 []) with
      | some part, some total, some off, some orig, some trimTo, some mnum,
        some mtime, some lost =>
          some { file := parts.getD 0 [], part := part, total_parts := total,
                 start_offset := off, original_duration := orig, trim_to := trimTo,
                 measure_number := mnum, measure_time := mtime, time_lost := lost }
      | _, _, _, _, _, _, _, _ => none
    else if 6 ≤ parts.length then
      match parseFloatOpt (parts.getD 1 []), parseFloatOpt (parts.getD 2 []),
            parseIntOpt (parts.getD 3 []), parseFloatOpt (parts.getD 4 []),
            parseFloatOpt (parts.getD 5 []) with
      | some orig, some trimTo, some mnum, some mtime, some lost =>
          some { file := parts.getD 0 [], part := 1, total_parts := 1,
                 start_offset := 0, original_duration := orig, trim_to := trimTo,
                 measure_number := mnum, measure_time := mtime, time_lost := lost }
      | _, _, _, _, _ => none
    else none

/-- `load_scene_plan(plan_file)` on the file's lines: parse each line,
skipping comments, blanks, and malformed lines. -/
def load_scene_plan (plan_lines : List (List Char)) : List SceneInfo :=
  plan_lines.filterMap parsePlanLine

/-- Join fields with the writer's `", "` separator (the f-string layout of
the plan-writing block). -/
def joinCSV : List (List Char) → List Char
  | [] => []
  | [f] => f
  | f :: r => f ++ ',' :: ' ' :: joinCSV r

/-- One plan line as written by `align_scenes_to_measures`:
`f"{file}, {part}, {total_parts}, {start_offset:.6f}, {original_duration:.6f},
{trim_to:.6f}, {closest_measure}, {measure_time:.6f}, {time_lost:.6f}"`. -/
def serializeEntry (scene : SceneDatum) : List Char :=
  joinCSV [scene.file, fmtNat scene.part, fmtNat scene.total_parts,
           fmt6 scene.start_offset, fmt6 scene.original_duration, fmt6 scene.trim_to,
           fmtNat scene.closest_measure, fmt6 scene.measure_time, fmt6 scene.time_lost]

/-- The header comment block the writer emits (the optional max-length line
appears only when `max_measures` is truthy, as in `if max_measures:`). -/
def planHeader (max_measures : Option ℕ) : List (List Char) :=
  ["# Scene Alignment Plan".data,
   "# Each scene will be trimmed to align with measure timestamps".data] ++
  (match max_measures with
   | some mm => if mm ≠ 0 then
       [("# Max scene length: ".data ++ fmtNat mm ++ " measures".data)] else []
   | none => []) ++
  ["#".data,
   ("# Format: scene_file, part, total_parts, start_offset, original_duration, " ++
    "trim_to_duration, measure_number, measure_time, time_lost").data,
   "#".data]

/-- The full plan file written by `align_scenes_to_measures`: header comment
block, then one line per scene part, in `scene_data` order. -/
def serializePlan (max_measures : Option ℕ) (scene_data : List SceneDatum) :
    List (List Char) :=
  planHeader max_measures ++ scene_data.map serializeEntry

/-! ## The final mux step (`add_audio` in `src/assemble_video.py`) -/

/-- The video-codec argument of the final mux command. -/
inductive VideoCodecArg
  | libx264
  | copy
deriving DecidableEq, Repr

/-- The aspects of the `ffmpeg` command built by `add_audio` that the mux
choice controls: an optional `-t <audio_duration>` output-duration limit,
the `-c:v` codec, and the presence of `-shortest`. -/
structure MuxCommand where
  t_limit : Option ℚ
  video_codec : VideoCodecArg
  shortest : Bool
deriving DecidableEq, Repr

/-- The branch of `add_audio` that chooses the final mux command: if the
concatenated video exceeds the audio by more than `0.1` s, re-encode with the
output truncated to the audio duration (`-t`); otherwise stream-copy the video
and stop at the shorter stream (`-shortest`). -/
def add_audio (video_duration audio_duration : ℚ) : MuxCommand :=
  if video_duration > audio_duration + 1 / 10 then
    { t_limit := some audio_duration, video_codec := .libx264, shortest := false }
  else
    { t_limit := none, video_codec := .copy, shortest := true }

/-- A scene-file character that survives the codec verbatim: not whitespace
(so `strip` leaves it), not a comma (the field separator), not `#` (the
comment marker).  Real scene files (`scene_0001.mp4`, …) satisfy this. -/
def goodFileChar (c : Char) : Bool := !c.isWhitespace && c != ',' && c != '#'

/-- What `load_scene_plan` recovers from a serialized `SceneDatum`: the same
fields, with every `:.6f`-formatted rational replaced by its value rounded to
six fractional digits. -/
def loadedEntry (e : SceneDatum) : SceneInfo :=
  { file := e.file, part := e.part, total_parts := e.total_parts,
    start_offset := round6 e.start_offset,
    original_duration := round6 e.original_duration,
    trim_to := round6 e.trim_to, measure_number := e.closest_measure,
    measure_time := round6 e.measure_time, time_lost := round6 e.time_lost }

/-! ## Theorems -/

section BasicFacts

/-- The fuel-indexed digit function agrees with `Nat.digits 10` once the fuel
dominates the argument. -/
theorem natDigitsAux_eq_digits : ∀ fuel n : ℕ, n ≤ fuel →
    natDigitsAux fuel n = Nat.digits 10 n := by
  intro fuel
  induction fuel with
  | zero => intro n hn; interval_cases n; simp [natDigitsAux]
  | succ fuel ih =>
    intro n hn
    match n with
    | 0 => simp [natDigitsAux]
    | n + 1 =>
      have hdiv : (n + 1) / 10 ≤ fuel := by
        have := Nat.div_lt_self (Nat.succ_pos n) (by norm_num : 1 < 10)
        omega
      rw [natDigitsAux, Nat.digits_def' (by norm_num : 1 < 10) (Nat.succ_pos n), ih _ hdiv]

theorem natDigits_eq_digits (n : ℕ) : natDigits n = Nat.digits 10 n :=
  natDigitsAux_eq_digits n n le_rfl

end BasicFacts

section PlannerStructure

theorem mkSceneInfo_part (name : List Char) (p t : ℕ) (s d : ℚ) (r : Option (ℕ × ℚ)) :
    (mkSceneInfo name p t s d r).part = p := by
  rcases r with - | ⟨i, m⟩ <;> rfl

theorem mkSceneInfo_start_offset (name : List Char) (p t : ℕ) (s d : ℚ) (r : Option (ℕ × ℚ)) :
    (mkSceneInfo name p t s d r).start_offset = s := by
  rcases r with - | ⟨i, m⟩ <;> rfl

theorem mkSceneInfo_original_duration (name : List Char) (p t : ℕ) (s d : ℚ)
    (r : Option (ℕ × ℚ)) : (mkSceneInfo name p t s d r).original_duration = d := by
  rcases r with - | ⟨i, m⟩ <;> rfl

/-- Every entry emitted for one scene is a `mkSceneInfo` built on the
nearest-measure search for its own `source_span`. -/
theorem planScene_mem {measures : List ℚ} {msd : Option ℚ} {name : List Char} {duration : ℚ}
    {e : SceneDatum} (he : e ∈ planScene measures msd name duration) :
    ∃ p t s span, e = mkSceneInfo name p t s span
      (find_closest_measure_before span measures) := by
  rcases msd with - | M
  · rw [planScene, List.mem_singleton] at he
    exact ⟨1, 1, 0, duration, he⟩
  · rw [planScene] at he
    by_cases hd : duration > M
    · rw [if_pos hd, splitSceneParts, List.mem_map] at he
      obtain ⟨k, -, rfl⟩ := he
      exact ⟨k + 1, _, _, _, rfl⟩
    · rw [if_neg hd, List.mem_singleton] at he
      exact ⟨1, 1, 0, duration, he⟩

/-- Every entry of a plan comes from `planScene` on some inventory scene. -/
theorem align_mem {measures : List ℚ} {mm : Option ℕ} {scenes : List (List Char × ℚ)}
    {e : SceneDatum} (he : e ∈ (align_scenes_to_measures measures mm scenes).getD []) :
    ∃ name duration, (name, duration) ∈ scenes ∧
      e ∈ planScene measures (max_scene_duration measures mm) name duration := by
  by_cases hs : scenes = []
  · rw [align_scenes_to_measures, if_pos hs] at he
    simp at he
  · rw [align_scenes_to_measures, if_neg hs] at he
    simp only [Option.getD_some, List.mem_flatten, List.mem_map] at he
    obtain ⟨-, ⟨⟨name, duration⟩, hmem, rfl⟩, hin⟩ := he
    exact ⟨name, duration, hmem, hin⟩

/-- A target strictly below the first measure makes the scan `break`
immediately with no candidate. -/
theorem find_closest_measure_before_lt_head {target m0 : ℚ} {rest : List ℚ}
    (h : target < m0) : find_closest_measure_before target (m0 :: rest) = none := by
  rw [find_closest_measure_before, fcmbGo, if_neg (not_le.2 h)]

end PlannerStructure

/-- Claim C5: any plan entry whose `source_span` (`original_duration`) is
strictly below the first timestamp of the (non-empty) Measure Track is left
untrimmed: `trim_to = source_span` and `time_lost = 0`. -/
theorem part_before_first_measure_untrimmed
    (measures : List ℚ) (m0 : ℚ) (rest : List ℚ) (mm : Option ℕ)
    (scenes : List (List Char × ℚ)) (e : SceneDatum)
    (hm : measures = m0 :: rest)
    (he : e ∈ (align_scenes_to_measures measures mm scenes).getD [])
    (hlt : e.original_duration < m0) :
    e.trim_to = e.original_duration ∧ e.time_lost = 0 := by
  obtain ⟨name, d, -, hp⟩ := align_mem he
  obtain ⟨p, t, s, span, rfl⟩ := planScene_mem hp
  rw [mkSceneInfo_original_duration] at hlt
  subst hm
  rw [find_closest_measure_before_lt_head hlt]
  exact ⟨rfl, rfl⟩

/-- Witness for C5: MeasureTrack `[5.0]`, one 1.0-second scene; the emitted
entry is untrimmed. -/
theorem part_before_first_measure_untrimmed_witness :
    (SceneDatum.mk ['s'] 1 1 0 1 1 0 1 0) ∈
        (align_scenes_to_measures [5] none [(['s'], 1)]).getD [] ∧
    (SceneDatum.mk ['s'] 1 1 0 1 1 0 1 0).original_duration < 5 ∧
    ((SceneDatum.mk ['s'] 1 1 0 1 1 0 1 0).trim_to =
        (SceneDatum.mk ['s'] 1 1 0 1 1 0 1 0).original_duration ∧
      (SceneDatum.mk ['s'] 1 1 0 1 1 0 1 0).time_lost = 0) :=
  ⟨by decide, by decide,
    part_before_first_measure_untrimmed [5] 5 [] none [(['s'], 1)] _ rfl
      (by decide) (by decide)⟩

section SplitStructure

theorem pyInt_of_nonneg {q : ℚ} (h : 0 ≤ q) : pyInt q = ⌊q⌋ := by
  rw [pyInt, if_neg (not_lt.2 h)]

/-- Length and pointwise description of the parts produced by the splitting
branch, for a positive cap strictly below the duration. -/
theorem splitSceneParts_get (measures : List ℚ) (M : ℚ) (name : List Char) (D : ℚ)
    (hM : 0 < M) (hD : M < D) :
    (splitSceneParts measures M name D).length = (⌊D / M⌋).toNat + 1 ∧
    ∀ k (hk : k < (splitSceneParts measures M name D).length),
      (splitSceneParts measures M name D).get ⟨k, hk⟩ =
        mkSceneInfo name (k + 1) ((⌊D / M⌋).toNat + 1) ((k : ℚ) * M)
          (min (((k : ℚ) + 1) * M) D - (k : ℚ) * M)
          (find_closest_measure_before (min (((k : ℚ) + 1) * M) D - (k : ℚ) * M) measures) := by
  have hq : 0 ≤ D / M := (div_pos (hM.trans hD) hM).le
  have hfl : 0 ≤ ⌊D / M⌋ := Int.floor_nonneg.2 hq
  have hpy : (pyInt (D / M) + 1).toNat = (⌊D / M⌋).toNat + 1 := by
    rw [pyInt_of_nonneg hq]; omega
  constructor
  · simp [splitSceneParts, hpy]
  · intro k hk
    simp only [splitSceneParts, hpy, List.get_eq_getElem, List.getElem_map, List.getElem_range]

/-- Closed form of the splitting branch as a `List.range` map. -/
theorem splitSceneParts_eq (measures : List ℚ) (M : ℚ) (name : List Char) (D : ℚ)
    (hM : 0 < M) (hD : M < D) :
    splitSceneParts measures M name D =
      (List.range ((⌊D / M⌋).toNat + 1)).map (fun k =>
        mkSceneInfo name (k + 1) ((⌊D / M⌋).toNat + 1) ((k : ℚ) * M)
          (min (((k : ℚ) + 1) * M) D - (k : ℚ) * M)
          (find_closest_measure_before (min (((k : ℚ) + 1) * M) D - (k : ℚ) * M) measures)) := by
  have hq : 0 ≤ D / M := (div_pos (hM.trans hD) hM).le
  have hfl : 0 ≤ ⌊D / M⌋ := Int.floor_nonneg.2 hq
  have hpy : (pyInt (D / M) + 1).toNat = (⌊D / M⌋).toNat + 1 := by
    rw [pyInt_of_nonneg hq]; omega
  simp only [splitSceneParts, hpy]

/-- Casting helper: the part count's predecessor, as a rational, is `⌊D/M⌋`. -/
theorem floor_toNat_cast (M D : ℚ) (hM : 0 < M) (hD : M < D) :
    (((⌊D / M⌋).toNat : ℚ)) = ((⌊D / M⌋ : ℤ) : ℚ) := by
  have hq : 0 ≤ D / M := (div_pos (hM.trans hD) hM).le
  exact_mod_cast congrArg (fun z : ℤ => (z : ℚ)) (Int.toNat_of_nonneg (Int.floor_nonneg.2 hq))

/-- For every index at most the part count, `k·M` stays below the duration. -/
theorem mul_le_of_le_floor {M D : ℚ} (hM : 0 < M) (hD : M < D) {k : ℕ}
    (hk : k ≤ (⌊D / M⌋).toNat) : (k : ℚ) * M ≤ D := by
  have hfl : 0 ≤ ⌊D / M⌋ := Int.floor_nonneg.2 (div_pos (hM.trans hD) hM).le
  have h1 : ((k : ℤ) : ℚ) ≤ ((⌊D / M⌋ : ℤ) : ℚ) := by
    have : (k : ℤ) ≤ ⌊D / M⌋ := by omega
    exact_mod_cast this
  have h2 : ((k : ℤ) : ℚ) ≤ D / M := h1.trans (Int.floor_le _)
  rw [le_div_iff hM] at h2
  exact_mod_cast h2

/-- The telescoping sum of part spans up to index `j` is `min (j·M) D`. -/
theorem span_sum_range (M D : ℚ) (hM : 0 < M) (hD : M < D) :
    ∀ j, j ≤ (⌊D / M⌋).toNat + 1 →
      ((List.range j).map (fun (k : ℕ) => min (((k : ℚ) + 1) * M) D - (k : ℚ) * M)).sum
        = min ((j : ℚ) * M) D := by
  intro j
  induction j with
  | zero =>
    intro _
    have h0 : min ((0 : ℚ) * M) D = 0 := by
      rw [zero_mul]; exact min_eq_left (hM.trans hD).le
    simpa using h0.symm
  | succ j ih =>
    intro hj
    rw [List.range_succ, List.map_append, List.sum_append, ih (by omega)]
    have hjD : (j : ℚ) * M ≤ D := mul_le_of_le_floor hM hD (by omega)
    rw [min_eq_left hjD]
    simp only [List.map_cons, List.map_nil, List.sum_cons, List.sum_nil, add_zero]
    push_cast
    ring

end SplitStructure

/-- Claim C2 (amended): for splitting enabled with cap `0 < M < D`, the
planner emits `⌊D/M⌋ + 1` consecutive parts (this equals `ceil(D/M)` exactly
when `M` does not divide `D`; at exact multiples there is one extra, empty,
final part), numbered from 1, with `start_offset` values `0, M, 2M, …`,
`source_span` values `min((k+1)·M, D) − k·M` — every part except the last has
span `M` — and the spans sum to exactly `D`. -/
theorem split_part_characterization
    (measures : List ℚ) (M : ℚ) (name : List Char) (D : ℚ) (hM : 0 < M) (hD : M < D) :
    planScene measures (some M) name D = splitSceneParts measures M name D ∧
    (splitSceneParts measures M name D).length = (⌊D / M⌋).toNat + 1 ∧
    (∀ k (hk : k < (splitSceneParts measures M name D).length),
      ((splitSceneParts measures M name D).get ⟨k, hk⟩).part = k + 1 ∧
      ((splitSceneParts measures M name D).get ⟨k, hk⟩).start_offset = (k : ℚ) * M ∧
      ((splitSceneParts measures M name D).get ⟨k, hk⟩).original_duration =
        min (((k : ℚ) + 1) * M) D - (k : ℚ) * M ∧
      (k + 1 < (splitSceneParts measures M name D).length →
        ((splitSceneParts measures M name D).get ⟨k, hk⟩).original_duration = M)) ∧
    ((splitSceneParts measures M name D).map
      (fun (e : SceneDatum) => e.original_duration)).sum = D ∧
    (D ≠ ((⌊D / M⌋ : ℤ) : ℚ) * M → (⌊D / M⌋).toNat + 1 = (⌈D / M⌉).toNat) := by
  obtain ⟨hlen, hget⟩ := splitSceneParts_get measures M name D hM hD
  have hq : 0 ≤ D / M := (div_pos (hM.trans hD) hM).le
  have hfl : 0 ≤ ⌊D / M⌋ := Int.floor_nonneg.2 hq
  refine ⟨?_, hlen, ?_, ?_, ?_⟩
  · simp only [planScene, if_pos hD]
  · intro k hk
    rw [hget k hk]
    refine ⟨mkSceneInfo_part .., mkSceneInfo_start_offset .., mkSceneInfo_original_duration .., ?_⟩
    intro hk1
    rw [mkSceneInfo_original_duration]
    have hkF : (k : ℚ) + 1 ≤ ((⌊D / M⌋).toNat : ℚ) := by
      rw [hlen] at hk1
      exact_mod_cast Nat.succ_le_of_lt (by omega)
    have h1 : ((k : ℚ) + 1) * M ≤ D := by
      have := mul_le_of_le_floor hM hD (k := k + 1) (by rw [hlen] at hk1; omega)
      push_cast at this
      exact this
    rw [min_eq_left h1]
    ring
  · rw [splitSceneParts_eq measures M name D hM hD, List.map_map]
    have hcomp :
        (fun (e : SceneDatum) => e.original_duration) ∘ (fun (k : ℕ) =>
          mkSceneInfo name (k + 1) ((⌊D / M⌋).toNat + 1) ((k : ℚ) * M)
            (min (((k : ℚ) + 1) * M) D - (k : ℚ) * M)
            (find_closest_measure_before (min (((k : ℚ) + 1) * M) D - (k : ℚ) * M) measures))
          = fun (k : ℕ) => min (((k : ℚ) + 1) * M) D - (k : ℚ) * M := by
      funext k
      exact mkSceneInfo_original_duration ..
    rw [hcomp, span_sum_range M D hM hD _ le_rfl]
    have hcst : (((⌊D / M⌋).toNat + 1 : ℕ) : ℚ) = ((⌊D / M⌋ : ℤ) : ℚ) + 1 := by
      push_cast
      rw [floor_toNat_cast M D hM hD]
    have hlt : D < (((⌊D / M⌋).toNat + 1 : ℕ) : ℚ) * M := by
      have h1 : D / M < ((⌊D / M⌋ : ℤ) : ℚ) + 1 := Int.lt_floor_add_one _
      rw [div_lt_iff hM] at h1
      rw [hcst]
      exact h1
    exact min_eq_right hlt.le
  · intro hmult
    have hne : ((⌊D / M⌋ : ℤ) : ℚ) ≠ D / M := by
      intro heq
      exact hmult ((div_eq_iff hM.ne').1 heq.symm)
    have hlt : ((⌊D / M⌋ : ℤ) : ℚ) < D / M := lt_of_le_of_ne (Int.floor_le _) hne
    have h1 : ⌊D / M⌋ < ⌈D / M⌉ := Int.lt_ceil.2 hlt
    have h2 : ⌈D / M⌉ ≤ ⌊D / M⌋ + 1 := Int.ceil_le_floor_add_one _
    omega

/-- Claim C1 (evaluation at the failing input): on MeasureTrack `[5.0]` and a
single 1.0-second scene no measure qualifies, yet the emitted `PlanEntry` has
`closest_measure = 1`, not `0` (with `measure_time = 0.0`): in the source the
no-measure branch reassigns `closest_measure_idx = 0`, so the
`... if closest_measure_idx is not None else 0` expression adds one to it and
its `else 0` arm is unreachable. -/
theorem align_no_qualifying_measure_emits_index_one :
    align_scenes_to_measures [5] none [(['s'], 1)] =
      some [{ file := ['s'], part := 1, total_parts := 1, start_offset := 0,
              original_duration := 1, trim_to := 1, time_lost := 0,
              closest_measure := 1, measure_time := 0 }] := by decide

unseal Rat.add Rat.sub Rat.mul Rat.inv in
/-- Claim C2 (counterexample): with `max_scene_duration = 1.0` (MeasureTrack
`[0.0, 0.5, 1.0, 1.5, 2.0]`, `max_measures = 2`), a scene of duration exactly
`2.0` (strictly exceeding `M`) is split into `int(2/1) + 1 = 3` parts, not
`ceil(2/1) = 2` parts as the claim states. -/
theorem split_exact_multiple_three_parts :
    ((align_scenes_to_measures [0, 1/2, 1, 3/2, 2] (some 2) [(['s'], 2)]).getD []).length = 3 ∧
    (⌈(2 : ℚ) / 1⌉.toNat = 2) := by decide

unseal Rat.add Rat.sub Rat.mul Rat.inv in
/-- Claim C3 (counterexample): with MeasureTrack `[0, 1, 2]` and
`max_measures = 2` (so `max_scene_duration = 2.0`), a scene of duration `4.0`
(every scene duration positive) yields three parts with `source_span` values
`[2, 2, 0]` — the last `PlanEntry` has `source_span = 0`, violating
`source_span > 0`. -/
theorem split_exact_multiple_zero_span :
    ((align_scenes_to_measures [0, 1, 2] (some 2) [(['s'], 4)]).getD []).map
      (fun e => e.original_duration) = [2, 2, 0] := by decide

unseal Rat.add Rat.sub Rat.mul Rat.inv in
/-- Witness for C2 (amended): cap `M = 1`, duration `D = 2.5`: hypotheses hold
and the three spans sum to exactly `2.5`. -/
theorem split_part_characterization_witness :
    (0 : ℚ) < 1 ∧ (1 : ℚ) < 5 / 2 ∧
    ((splitSceneParts [0, 1/2, 1, 3/2, 2] 1 ['s'] (5/2)).map
      (fun (e : SceneDatum) => e.original_duration)).sum = 5 / 2 :=
  ⟨by norm_num, by norm_num,
    (split_part_characterization [0, 1/2, 1, 3/2, 2] 1 ['s'] (5/2)
      (by norm_num) (by norm_num)).2.2.2.1⟩

/-- Claim C3 (amended): every emitted `PlanEntry` has `source_span > 0`
provided every scene duration is positive, the derived `max_scene_duration`
(when defined) is positive, and no scene that gets split has a duration that
is an exact integer multiple of the cap.  (At exact multiples the final part
has `source_span = 0` — see the counterexample.) -/
theorem align_spans_positive
    (measures : List ℚ) (mm : Option ℕ) (scenes : List (List Char × ℚ))
    (h1 : ∀ s ∈ scenes, 0 < s.2)
    (h0 : max_scene_duration measures mm = none ∨
      0 < (max_scene_duration measures mm).getD 0)
    (h2 : ∀ s ∈ scenes, (max_scene_duration measures mm).getD 0 < s.2 →
      s.2 ≠ ((⌊s.2 / (max_scene_duration measures mm).getD 0⌋ : ℤ) : ℚ) *
        (max_scene_duration measures mm).getD 0) :
    ∀ e ∈ (align_scenes_to_measures measures mm scenes).getD [],
      0 < e.original_duration := by
  intro e he
  obtain ⟨name, D, hmem, hp⟩ := align_mem he
  have hD : 0 < D := h1 _ hmem
  rcases hmsd : max_scene_duration measures mm with - | M
  · rw [hmsd, planScene, List.mem_singleton] at hp
    subst hp
    rw [mkSceneInfo_original_duration]
    exact hD
  · rw [hmsd] at hp h0 h2
    have hM : 0 < M := by
      rcases h0 with h | h
      · exact absurd h (by simp)
      · simpa using h
    rw [planScene] at hp
    by_cases hcap : D > M
    · rw [if_pos hcap, splitSceneParts_eq measures M name D hM hcap, List.mem_map] at hp
      obtain ⟨k, hkmem, rfl⟩ := hp
      rw [List.mem_range] at hkmem
      rw [mkSceneInfo_original_duration]
      have hmult := h2 _ hmem (by simpa using hcap)
      simp only [Option.getD_some] at hmult
      rcases Nat.lt_succ_iff_lt_or_eq.1 hkmem with hkF | hkF
      · have hle : ((k : ℚ) + 1) * M ≤ D := by
          have := mul_le_of_le_floor hM hcap (k := k + 1) (by omega)
          push_cast at this
          exact this
        rw [min_eq_left hle]
        have heq : ((k : ℚ) + 1) * M - (k : ℚ) * M = M := by ring
        rw [heq]
        exact hM
      · subst hkF
        have hcast : (((⌊D / M⌋).toNat : ℚ)) = ((⌊D / M⌋ : ℤ) : ℚ) :=
          floor_toNat_cast M D hM hcap
        have hlt : D < (((⌊D / M⌋).toNat : ℚ) + 1) * M := by
          have hfl : D / M < ((⌊D / M⌋ : ℤ) : ℚ) + 1 := Int.lt_floor_add_one _
          rw [div_lt_iff hM] at hfl
          rw [hcast]
          exact hfl
        rw [min_eq_right hlt.le]
        have hle : ((⌊D / M⌋).toNat : ℚ) * M ≤ D := mul_le_of_le_floor hM hcap le_rfl
        have hne : D ≠ ((⌊D / M⌋).toNat : ℚ) * M := by
          rw [hcast]
          exact hmult
        exact sub_pos.2 (lt_of_le_of_ne hle (fun h => hne h.symm))
    · rw [if_neg hcap, List.mem_singleton] at hp
      subst hp
      rw [mkSceneInfo_original_duration]
      exact hD

unseal Rat.add Rat.sub Rat.mul Rat.inv in
/-- Witness for C3 (amended): the 2.6-second scene with cap `1.0` satisfies
the hypotheses (2.6 is not an integer multiple of 1.0) and every span in its
plan is positive. -/
theorem align_spans_positive_witness :
    (∀ s ∈ [(['s'], (13 : ℚ)/5)], 0 < s.2) ∧
    (max_scene_duration [0, 1/2, 1, 3/2, 2] (some 2) = none ∨
      0 < (max_scene_duration [0, 1/2, 1, 3/2, 2] (some 2)).getD 0) ∧
    (∀ s ∈ [(['s'], (13 : ℚ)/5)],
      (max_scene_duration [0, 1/2, 1, 3/2, 2] (some 2)).getD 0 < s.2 →
      s.2 ≠ ((⌊s.2 / (max_scene_duration [0, 1/2, 1, 3/2, 2] (some 2)).getD 0⌋ : ℤ) : ℚ) *
        (max_scene_duration [0, 1/2, 1, 3/2, 2] (some 2)).getD 0) ∧
    (∀ e ∈ (align_scenes_to_measures [0, 1/2, 1, 3/2, 2] (some 2)
        [(['s'], (13 : ℚ)/5)]).getD [], 0 < e.original_duration) :=
  ⟨by decide, by decide, by decide,
    align_spans_positive [0, 1/2, 1, 3/2, 2] (some 2) [(['s'], (13 : ℚ)/5)]
      (by decide) (by decide) (by decide)⟩

unseal Rat.add Rat.sub Rat.mul Rat.inv in
/-- Claim C7 (counterexample): on MeasureTrack `[0.0, 0.5, 1.0, 1.5, 2.0]`
with `max_scene_duration = 1.0` (`max_measures = 2`), the 2.6-second scene is
split into three parts (`int(2.6) + 1 = 3`), not the two parts the claim
states. -/
theorem scene26_three_parts :
    ((align_scenes_to_measures [0, 1/2, 1, 3/2, 2] (some 2)
        [("scene_001.mp4".data, 13/5)]).getD []).length = 3 := by decide

unseal Rat.add Rat.sub Rat.mul Rat.inv in
/-- Claim C7 (amended): the full plan for the 2.6-second scene: parts 1 and 2
exactly as the claim states (`start_offset` 0.0/1.0, `source_span = trim_to =
1.0`), plus a third part carrying the 0.6-second remainder, trimmed to the
0.5-second measure (0.1 s lost). -/
theorem scene26_full_plan :
    (align_scenes_to_measures [0, 1/2, 1, 3/2, 2] (some 2)
        [("scene_001.mp4".data, 13/5)]).getD [] =
      [{ file := "scene_001.mp4".data, part := 1, total_parts := 3, start_offset := 0,
         original_duration := 1, trim_to := 1, time_lost := 0,
         closest_measure := 3, measure_time := 1 },
       { file := "scene_001.mp4".data, part := 2, total_parts := 3, start_offset := 1,
         original_duration := 1, trim_to := 1, time_lost := 0,
         closest_measure := 3, measure_time := 1 },
       { file := "scene_001.mp4".data, part := 3, total_parts := 3, start_offset := 2,
         original_duration := 3/5, trim_to := 1/2, time_lost := 1/10,
         closest_measure := 2, measure_time := 1/2 }] := by decide

section CharFacts

theorem digit_char_isDigit {d : ℕ} (h : d < 10) : (Char.ofNat (48 + d)).isDigit = true := by
  interval_cases d <;> decide

theorem digit_char_toNat {d : ℕ} (h : d < 10) : (Char.ofNat (48 + d)).toNat - 48 = d := by
  interval_cases d <;> decide

theorem isDigit_ne {c x : Char} (h : c.isDigit = true) (hx : x.isDigit = false) : c ≠ x := by
  intro hc
  rw [hc, hx] at h
  cases h

theorem isDigit_not_ws {c : Char} (h : c.isDigit = true) : c.isWhitespace = false := by
  cases hw : c.isWhitespace
  · rfl
  · exfalso
    have : ((c = ' ' ∨ c = '\t') ∨ c = '\r') ∨ c = '\n' := by
      simpa [Char.isWhitespace] using hw
    rcases this with ((rfl | rfl) | rfl) | rfl <;> cases h

theorem mem_of_head?' {α : Type} {l : List α} {a : α} (h : l.head? = some a) : a ∈ l := by
  cases l with
  | nil => cases h
  | cons x t =>
    rw [List.head?_cons] at h
    injection h with h
    rw [← h]
    exact List.mem_cons_self x t

theorem mem_of_getLast?' {α : Type} {l : List α} {a : α} (h : l.getLast? = some a) : a ∈ l := by
  cases l with
  | nil => cases h
  | cons x t =>
    have hne : x :: t ≠ [] := by simp
    rw [List.getLast?_eq_getLast _ hne] at h
    injection h with h
    rw [← h]
    exact List.getLast_mem hne

theorem getLast?_append_right {α : Type} {l1 l2 : List α} (h : l2 ≠ []) :
    (l1 ++ l2).getLast? = l2.getLast? := by
  rw [List.getLast?_append, List.getLast?_eq_getLast _ h]
  rfl

end CharFacts

section DigitsVal

theorem digitsVal_append_singleton (xs : List Char) (c : Char) :
    digitsVal (xs ++ [c]) = 10 * digitsVal xs + (c.toNat - 48) := by
  simp [digitsVal, List.foldl_append]

theorem digitsVal_rev_map (l : List ℕ) (h : ∀ d ∈ l, d < 10) :
    digitsVal ((l.map fun d => Char.ofNat (48 + d)).reverse) = Nat.ofDigits 10 l := by
  induction l with
  | nil => simp [digitsVal, Nat.ofDigits_nil]
  | cons d t ih =>
    simp only [List.map_cons, List.reverse_cons]
    rw [digitsVal_append_singleton, ih (fun x hx => h x (List.mem_cons_of_mem _ hx)),
      digit_char_toNat (h d (List.mem_cons_self ..)), Nat.ofDigits_cons]
    ring

theorem digitsVal_natChars (n : ℕ) : digitsVal (natChars n) = n := by
  rw [natChars, natDigits_eq_digits,
    digitsVal_rev_map _ (fun d hd => Nat.digits_lt_base (by norm_num) hd),
    Nat.ofDigits_digits]

theorem natChars_all_digit (n : ℕ) : ∀ c ∈ natChars n, c.isDigit = true := by
  intro c hc
  rw [natChars, natDigits_eq_digits, List.mem_reverse, List.mem_map] at hc
  obtain ⟨d, hd, rfl⟩ := hc
  exact digit_char_isDigit (Nat.digits_lt_base (by norm_num) hd)

theorem natChars_ne_nil {n : ℕ} (h : n ≠ 0) : natChars n ≠ [] := by
  rw [natChars, natDigits_eq_digits]
  simp [Nat.digits_ne_nil_iff_ne_zero, h]

theorem fmtNat_all_digit (n : ℕ) : ∀ c ∈ fmtNat n, c.isDigit = true := by
  rw [fmtNat]
  by_cases h : n = 0
  · rw [if_pos h]; intro c hc; rw [List.mem_singleton] at hc; subst hc; decide
  · rw [if_neg h]; exact natChars_all_digit n

theorem fmtNat_ne_nil (n : ℕ) : fmtNat n ≠ [] := by
  rw [fmtNat]
  by_cases h : n = 0
  · rw [if_pos h]; simp
  · rw [if_neg h]; exact natChars_ne_nil h

theorem digitsVal_fmtNat (n : ℕ) : digitsVal (fmtNat n) = n := by
  rw [fmtNat]
  by_cases h : n = 0
  · rw [if_pos h, h]; rfl
  · rw [if_neg h]; exact digitsVal_natChars n

theorem digitsVal_cons_zero (l : List Char) : digitsVal ('0' :: l) = digitsVal l := by
  show List.foldl _ (10 * 0 + ('0'.toNat - 48)) l = List.foldl _ 0 l
  have h : 10 * 0 + ('0'.toNat - 48) = 0 := by decide
  rw [h]

theorem digitsVal_replicate_zero (k : ℕ) (l : List Char) :
    digitsVal (List.replicate k '0' ++ l) = digitsVal l := by
  induction k with
  | zero => simp
  | succ k ih => rw [List.replicate_succ, List.cons_append, digitsVal_cons_zero, ih]

theorem fracChars_all_digit (f : ℕ) : ∀ c ∈ fracChars f, c.isDigit = true := by
  intro c hc
  rw [fracChars, List.mem_append] at hc
  rcases hc with hc | hc
  · rw [List.eq_of_mem_replicate hc]; decide
  · exact natChars_all_digit f c hc

theorem digitsVal_fracChars (f : ℕ) : digitsVal (fracChars f) = f := by
  rw [fracChars, digitsVal_replicate_zero, digitsVal_natChars]

theorem digits_len_le_six {f : ℕ} (hf : f < 1000000) : (Nat.digits 10 f).length ≤ 6 := by
  by_cases h0 : f = 0
  · subst h0; simp
  · have h1 : 10 ^ (Nat.digits 10 f).length ≤ 10 * f :=
      Nat.base_pow_length_digits_le 10 f (by norm_num) h0
    have h2 : 10 ^ (Nat.digits 10 f).length < 10 ^ 7 := lt_of_le_of_lt h1 (by omega)
    have h3 : (Nat.digits 10 f).length < 7 := (Nat.pow_lt_pow_iff_right (by norm_num)).1 h2
    omega

theorem length_fracChars {f : ℕ} (hf : f < 1000000) : (fracChars f).length = 6 := by
  have hlen : (natChars f).length ≤ 6 := by
    rw [natChars, List.length_reverse, List.length_map, natDigits_eq_digits]
    exact digits_len_le_six hf
  rw [fracChars, List.length_append, List.length_replicate]
  omega

end DigitsVal

section ParseFormat

theorem head?_digit_ne {l : List Char} (hd : ∀ c ∈ l, c.isDigit = true) {x : Char}
    (hx : x.isDigit = false) : l.head? ≠ some x := by
  intro h
  have hm := hd x (mem_of_head?' h)
  rw [hx] at hm
  cases hm

/-- `int(...)` recovers what `f"{n}"` printed. -/
theorem parseIntOpt_fmtNat (n : ℕ) : parseIntOpt (fmtNat n) = some (n : ℤ) := by
  rw [parseIntOpt,
    if_neg (head?_digit_ne (fmtNat_all_digit n) (by decide : ('-').isDigit = false)),
    if_neg (head?_digit_ne (fmtNat_all_digit n) (by decide : ('+').isDigit = false)),
    if_pos ⟨fmtNat_ne_nil n, fmtNat_all_digit n⟩, digitsVal_fmtNat]

theorem takeWhile_all_append (p : Char → Bool) (A B : List Char)
    (hA : ∀ a ∈ A, p a = true) : (A ++ B).takeWhile p = A ++ B.takeWhile p := by
  induction A with
  | nil => simp
  | cons a t ih =>
    rw [List.cons_append, List.takeWhile_cons, hA a (List.mem_cons_self ..),
      ih (fun x hx => hA x (List.mem_cons_of_mem _ hx))]
    rfl

theorem dropWhile_all_append (p : Char → Bool) (A B : List Char)
    (hA : ∀ a ∈ A, p a = true) : (A ++ B).dropWhile p = B.dropWhile p := by
  induction A with
  | nil => simp
  | cons a t ih =>
    rw [List.cons_append, List.dropWhile_cons, hA a (List.mem_cons_self ..),
      ih (fun x hx => hA x (List.mem_cons_of_mem _ hx))]
    rfl

/-- The unsigned float parser recovers `intpart.fracpart` exactly. -/
theorem parseUFloatOpt_format (a b : ℕ) (hb : b < 1000000) :
    parseUFloatOpt (fmtNat a ++ '.' :: fracChars b) =
      some ((a : ℚ) + (b : ℚ) / 1000000) := by
  have hdot : ('.').isDigit = false := by decide
  have htw : (fmtNat a ++ '.' :: fracChars b).takeWhile Char.isDigit = fmtNat a := by
    rw [takeWhile_all_append _ _ _ (fmtNat_all_digit a), List.takeWhile_cons, hdot]
    simp
  have hdw : (fmtNat a ++ '.' :: fracChars b).dropWhile Char.isDigit = '.' :: fracChars b := by
    rw [dropWhile_all_append _ _ _ (fmtNat_all_digit a), List.dropWhile_cons, hdot]
    simp
  rw [parseUFloatOpt]
  simp only [htw, hdw]
  rw [if_neg (by simp), if_pos ⟨rfl, by simpa using fracChars_all_digit b,
    Or.inl (fmtNat_ne_nil a)⟩]
  simp only [List.tail_cons, digitsVal_fmtNat, digitsVal_fracChars, length_fracChars hb]
  norm_num

/-- The value a `:.6f` field parses back to is the original rounded to six
fractional digits. -/
theorem parseFloatOpt_fmt6 (q : ℚ) : parseFloatOpt (fmt6 q) = some (round6 q) := by
  have hmod : ((round (q * 1000000)).natAbs) % 1000000 < 1000000 := Nat.mod_lt _ (by norm_num)
  have hval : (((round (q * 1000000)).natAbs / 1000000 : ℕ) : ℚ) +
      (((round (q * 1000000)).natAbs % 1000000 : ℕ) : ℚ) / 1000000 =
      ((round (q * 1000000)).natAbs : ℚ) / 1000000 := by
    have h := Nat.div_add_mod (round (q * 1000000)).natAbs 1000000
    have h2 : (1000000 : ℚ) * (((round (q * 1000000)).natAbs / 1000000 : ℕ) : ℚ) +
        (((round (q * 1000000)).natAbs % 1000000 : ℕ) : ℚ) =
        ((round (q * 1000000)).natAbs : ℚ) := by exact_mod_cast h
    field_simp
    linarith [h2]
  by_cases hn : round (q * 1000000) < 0
  · have habs : ((round (q * 1000000)).natAbs : ℚ) = -((round (q * 1000000) : ℤ) : ℚ) := by
      have h1 : |round (q * 1000000)| = -round (q * 1000000) := abs_of_neg hn
      rw [Int.cast_natAbs, h1]
      push_cast
      ring
    rw [fmt6]
    simp only [if_pos hn, List.singleton_append, List.cons_append, List.nil_append]
    rw [parseFloatOpt]
    rw [if_pos (by rw [List.head?_cons])]
    rw [List.tail_cons, parseUFloatOpt_format _ _ hmod]
    rw [show ∀ x : ℚ, Option.map Neg.neg (some x) = some (-x) from fun x => rfl]
    rw [hval, habs, round6]
    ring
  · rw [fmt6]
    simp only [if_neg hn, List.nil_append]
    have habs : ((round (q * 1000000)).natAbs : ℚ) = ((round (q * 1000000) : ℤ) : ℚ) := by
      have h1 : |round (q * 1000000)| = round (q * 1000000) := abs_of_nonneg (not_lt.1 hn)
      rw [Int.cast_natAbs, h1]
    have hhead : ∀ x : Char, x.isDigit = false →
        (fmtNat ((round (q * 1000000)).natAbs / 1000000) ++
          '.' :: fracChars ((round (q * 1000000)).natAbs % 1000000)).head? ≠ some x := by
      intro x hx h
      obtain ⟨c, hc, hcd⟩ : ∃ c, (fmtNat ((round (q * 1000000)).natAbs / 1000000)).head? = some c
          ∧ c.isDigit = true := by
        obtain ⟨c, t, hct⟩ := List.exists_cons_of_ne_nil
          (fmtNat_ne_nil ((round (q * 1000000)).natAbs / 1000000))
        refine ⟨c, by rw [hct, List.head?_cons], ?_⟩
        exact fmtNat_all_digit _ c (by rw [hct]; exact List.mem_cons_self ..)
      rw [List.head?_append, hc] at h
      rw [Option.or_some] at h
      injection h with h
      subst h
      rw [hx] at hcd
      cases hcd
    rw [parseFloatOpt,
      if_neg (hhead '-' (by decide)), if_neg (hhead '+' (by decide)),
      parseUFloatOpt_format _ _ hmod, hval, habs, round6]

end ParseFormat

section TrimSplit

theorem dropWhile_append_last (p : Char → Bool) (xs : List Char) {c : Char}
    (hc : p c = false) : (xs ++ [c]).dropWhile p = xs.dropWhile p ++ [c] := by
  induction xs with
  | nil => simp [List.dropWhile_cons, hc]
  | cons a t ih =>
    rw [List.cons_append, List.dropWhile_cons, List.dropWhile_cons]
    cases hpa : p a
    · simp
    · simpa using ih

theorem trimLeft_cons_of {a : Char} {l : List Char} (h : a.isWhitespace = false) :
    trimLeft (a :: l) = a :: l := by
  simp [trimLeft, List.dropWhile_cons, h]

theorem trimRight_append_last {l : List Char} {d : Char} (h : d.isWhitespace = false) :
    trimRight (l ++ [d]) = l ++ [d] := by
  rw [trimRight, List.reverse_append]
  simp only [List.reverse_singleton, List.singleton_append, List.dropWhile_cons, h]
  simp

theorem trim_eq_self_of_ends {l : List Char}
    (h1 : ∀ a, l.head? = some a → a.isWhitespace = false)
    (h2 : ∀ d, l.getLast? = some d → d.isWhitespace = false) : trim l = l := by
  cases hl : l with
  | nil => rfl
  | cons a t =>
    rw [trim, trimLeft_cons_of (h1 a (by rw [hl, List.head?_cons]))]
    have hne : a :: t ≠ [] := by simp
    have hdecomp : a :: t = (a :: t).dropLast ++ [(a :: t).getLast hne] :=
      (List.dropLast_append_getLast hne).symm
    rw [hdecomp]
    refine trimRight_append_last (h2 _ ?_)
    rw [hl, List.getLast?_eq_getLast _ hne]

theorem trim_all_not_ws {l : List Char} (h : ∀ c ∈ l, c.isWhitespace = false) : trim l = l :=
  trim_eq_self_of_ends (fun a ha => h a (mem_of_head?' ha))
    (fun d hd => h d (mem_of_getLast?' hd))

theorem trim_space_cons {g : List Char} (hg : ∀ c ∈ g, c.isWhitespace = false)
    (hne : g ≠ []) : trim (' ' :: g) = g := by
  obtain ⟨a, t, rfl⟩ := List.exists_cons_of_ne_nil hne
  rw [trim, trimLeft, List.dropWhile_cons]
  rw [show List.dropWhile Char.isWhitespace (a :: t) = a :: t from by
    simp [List.dropWhile_cons, hg a (List.mem_cons_self ..)]]
  have := trim_all_not_ws hg
  rw [trim, trimLeft_cons_of (hg a (List.mem_cons_self ..))] at this
  exact this

theorem splitOnChar_cons_step {c x : Char} {xs f : List Char} {r : List (List Char)}
    (hx : x ≠ c) (h : splitOnChar c xs = f :: r) :
    splitOnChar c (x :: xs) = (x :: f) :: r := by
  rw [splitOnChar, if_neg hx, h]

theorem splitOnChar_not_mem {c : Char} {xs : List Char} (h : c ∉ xs) :
    splitOnChar c xs = [xs] := by
  induction xs with
  | nil => rfl
  | cons x t ih =>
    have hx : x ≠ c := fun hxc => h (hxc ▸ List.mem_cons_self ..)
    exact splitOnChar_cons_step hx (ih (fun hc => h (List.mem_cons_of_mem _ hc)))

theorem splitOnChar_append {c : Char} {xs ys : List Char} (h : c ∉ xs) :
    splitOnChar c (xs ++ c :: ys) = xs :: splitOnChar c ys := by
  induction xs with
  | nil => rw [List.nil_append, splitOnChar, if_pos rfl]
  | cons x t ih =>
    have hx : x ≠ c := fun hxc => h (hxc ▸ List.mem_cons_self ..)
    rw [List.cons_append]
    exact splitOnChar_cons_step hx (ih (fun hc => h (List.mem_cons_of_mem _ hc)))

theorem splitOnChar_joinCSV : ∀ (f : List Char) (rest : List (List Char)), ',' ∉ f →
    (∀ g ∈ rest, ',' ∉ g) →
    splitOnChar ',' (joinCSV (f :: rest)) = f :: rest.map (fun g => ' ' :: g) := by
  intro f rest
  induction rest generalizing f with
  | nil => intro hf _; simp [joinCSV, splitOnChar_not_mem hf]
  | cons g r ih =>
    intro hf hr
    rw [show joinCSV (f :: g :: r) = f ++ ',' :: ' ' :: joinCSV (g :: r) from rfl,
      splitOnChar_append hf]
    have hih := ih g (hr g (List.mem_cons_self ..)) (fun x hx => hr x (List.mem_cons_of_mem _ hx))
    rw [splitOnChar_cons_step (by decide) hih]
    simp

end TrimSplit

section FieldChars

theorem fmt6_chars {q : ℚ} {c : Char} (h : c ∈ fmt6 q) :
    c.isDigit = true ∨ c = '-' ∨ c = '.' := by
  rw [fmt6] at h
  rcases List.mem_append.1 h with h1 | h2
  · rcases List.mem_append.1 h1 with hs | hA
    · by_cases hn : round (q * 1000000) < 0
      · rw [if_pos hn, List.mem_singleton] at hs
        exact Or.inr (Or.inl hs)
      · rw [if_neg hn] at hs
        exact absurd hs (List.not_mem_nil c)
    · exact Or.inl (fmtNat_all_digit _ _ hA)
  · rcases List.mem_cons.1 h2 with rfl | hB
    · exact Or.inr (Or.inr rfl)
    · exact Or.inl (fracChars_all_digit _ _ hB)

theorem fmt6_not_comma (q : ℚ) : ',' ∉ fmt6 q := by
  intro h
  rcases fmt6_chars h with h | h | h
  · exact absurd h (by decide)
  · exact absurd h (by decide)
  · exact absurd h (by decide)

theorem fmt6_not_ws (q : ℚ) : ∀ c ∈ fmt6 q, c.isWhitespace = false := by
  intro c hc
  rcases fmt6_chars hc with h | rfl | rfl
  · exact isDigit_not_ws h
  · decide
  · decide

theorem fmt6_ne_nil (q : ℚ) : fmt6 q ≠ [] := by
  rw [fmt6]
  intro h
  rcases List.append_eq_nil.1 h with ⟨-, h2⟩
  cases h2

theorem fmtNat_not_ws (n : ℕ) : ∀ c ∈ fmtNat n, c.isWhitespace = false :=
  fun c hc => isDigit_not_ws (fmtNat_all_digit n c hc)

theorem fmtNat_not_comma (n : ℕ) : ',' ∉ fmtNat n := fun h =>
  absurd (fmtNat_all_digit n ',' h) (by decide)

end FieldChars

section PlanLine

theorem joinCSV_cons_cons_ne_nil (g h' : List Char) (r : List (List Char)) :
    joinCSV (g :: h' :: r) ≠ [] := by
  rw [show joinCSV (g :: h' :: r) = g ++ ',' :: ' ' :: joinCSV (h' :: r) from rfl]
  intro h
  rcases List.append_eq_nil.1 h with ⟨-, h2⟩
  cases h2

theorem getLast?_joinCSV_cons (f g : List Char) (r : List (List Char))
    (hne : joinCSV (g :: r) ≠ []) :
    (joinCSV (f :: g :: r)).getLast? = (joinCSV (g :: r)).getLast? := by
  rw [show joinCSV (f :: g :: r) = f ++ ',' :: ' ' :: joinCSV (g :: r) from rfl,
    getLast?_append_right (by simp),
    show (',' :: ' ' :: joinCSV (g :: r) : List Char) = [',', ' '] ++ joinCSV (g :: r) from rfl,
    getLast?_append_right hne]

/-- Any line whose first character is `#` is skipped as a comment. -/
theorem parsePlanLine_hash (r : List Char) : parsePlanLine ('#' :: r) = none := by
  have hhead : (trim ('#' :: r)).head? = some '#' := by
    rw [trim, trimLeft_cons_of (by decide), trimRight, List.reverse_cons,
      dropWhile_append_last _ _ (by decide : ('#').isWhitespace = false),
      List.reverse_append]
    simp
  rw [parsePlanLine]
  rw [if_pos (Or.inr hhead)]

/-- A serialized plan row parses back to the same entry, numeric fields at
the written six-digit precision. -/
theorem parsePlanLine_serializeEntry (e : SceneDatum) (hne : e.file ≠ [])
    (hf : ∀ c ∈ e.file, goodFileChar c = true) :
    parsePlanLine (serializeEntry e) = some (loadedEntry e) := by
  have hfs : ∀ c ∈ e.file, c.isWhitespace = false ∧ c ≠ ',' ∧ c ≠ '#' := by
    intro c hc
    have h := hf c hc
    simp only [goodFileChar, Bool.and_eq_true, Bool.not_eq_true', bne_iff_ne, ne_eq] at h
    exact ⟨h.1.1, h.1.2, h.2⟩
  have hfile_nc : ',' ∉ e.file := fun h => (hfs ',' h).2.1 rfl
  have hrest : ∀ g ∈ [fmtNat e.part, fmtNat e.total_parts, fmt6 e.start_offset,
      fmt6 e.original_duration, fmt6 e.trim_to, fmtNat e.closest_measure,
      fmt6 e.measure_time, fmt6 e.time_lost], ',' ∉ g := by
    intro g hg
    simp only [List.mem_cons] at hg
    rcases hg with rfl | rfl | rfl | rfl | rfl | rfl | rfl | (rfl | hg0)
    · exact fmtNat_not_comma _
    · exact fmtNat_not_comma _
    · exact fmt6_not_comma _
    · exact fmt6_not_comma _
    · exact fmt6_not_comma _
    · exact fmtNat_not_comma _
    · exact fmt6_not_comma _
    · exact fmt6_not_comma _
    · exact absurd hg0 (List.not_mem_nil g)
  have hsplit : splitOnChar ',' (serializeEntry e) =
      [e.file,
       ' ' :: fmtNat e.part, ' ' :: fmtNat e.total_parts,
       ' ' :: fmt6 e.start_offset, ' ' :: fmt6 e.original_duration,
       ' ' :: fmt6 e.trim_to, ' ' :: fmtNat e.closest_measure,
       ' ' :: fmt6 e.measure_time, ' ' :: fmt6 e.time_lost] := by
    have h := splitOnChar_joinCSV e.file
      [fmtNat e.part, fmtNat e.total_parts, fmt6 e.start_offset, fmt6 e.original_duration,
       fmt6 e.trim_to, fmtNat e.closest_measure, fmt6 e.measure_time, fmt6 e.time_lost]
      hfile_nc hrest
    rw [serializeEntry] at *
    rw [h]
    simp
  obtain ⟨x, t, hxe⟩ := List.exists_cons_of_ne_nil hne
  have hxmem : x ∈ e.file := by rw [hxe]; exact List.mem_cons_self ..
  have hline : serializeEntry e =
      e.file ++ ',' :: ' ' :: joinCSV [fmtNat e.part, fmtNat e.total_parts,
        fmt6 e.start_offset, fmt6 e.original_duration, fmt6 e.trim_to,
        fmtNat e.closest_measure, fmt6 e.measure_time, fmt6 e.time_lost] := rfl
  have hhead : (serializeEntry e).head? = some x := by
    rw [hline, hxe, List.cons_append, List.head?_cons]
  have hhead_ws : ∀ a, (serializeEntry e).head? = some a → a.isWhitespace = false := by
    intro a ha
    rw [hhead] at ha
    injection ha with ha
    exact ha ▸ (hfs x hxmem).1
  have hlast : (serializeEntry e).getLast? = (fmt6 e.time_lost).getLast? := by
    rw [show serializeEntry e = joinCSV [e.file, fmtNat e.part, fmtNat e.total_parts,
      fmt6 e.start_offset, fmt6 e.original_duration, fmt6 e.trim_to,
      fmtNat e.closest_measure, fmt6 e.measure_time, fmt6 e.time_lost] from rfl]
    rw [getLast?_joinCSV_cons _ _ _ (joinCSV_cons_cons_ne_nil _ _ _),
      getLast?_joinCSV_cons _ _ _ (joinCSV_cons_cons_ne_nil _ _ _),
      getLast?_joinCSV_cons _ _ _ (joinCSV_cons_cons_ne_nil _ _ _),
      getLast?_joinCSV_cons _ _ _ (joinCSV_cons_cons_ne_nil _ _ _),
      getLast?_joinCSV_cons _ _ _ (joinCSV_cons_cons_ne_nil _ _ _),
      getLast?_joinCSV_cons _ _ _ (joinCSV_cons_cons_ne_nil _ _ _),
      getLast?_joinCSV_cons _ _ _ (joinCSV_cons_cons_ne_nil _ _ _),
      getLast?_joinCSV_cons _ _ _
        (by rw [show joinCSV [fmt6 e.time_lost] = fmt6 e.time_lost from rfl]
            exact fmt6_ne_nil _)]
    rfl
  have hlast_ws : ∀ d, (serializeEntry e).getLast? = some d → d.isWhitespace = false := by
    intro d hd
    rw [hlast] at hd
    exact fmt6_not_ws _ _ (mem_of_getLast?' hd)
  have htrim : trim (serializeEntry e) = serializeEntry e :=
    trim_eq_self_of_ends hhead_ws hlast_ws
  have hline_ne : serializeEntry e ≠ [] := by
    rw [hline, hxe]
    simp
  have hline_hash : ¬ (serializeEntry e).head? = some '#' := by
    rw [hhead]
    intro hcontra
    injection hcontra with hcontra
    exact (hfs x hxmem).2.2 hcontra
  simp only [parsePlanLine]
  rw [htrim, if_neg (not_or.2 ⟨hline_ne, hline_hash⟩), hsplit]
  have hmap : ([e.file, ' ' :: fmtNat e.part, ' ' :: fmtNat e.total_parts,
      ' ' :: fmt6 e.start_offset, ' ' :: fmt6 e.original_duration, ' ' :: fmt6 e.trim_to,
      ' ' :: fmtNat e.closest_measure, ' ' :: fmt6 e.measure_time,
      ' ' :: fmt6 e.time_lost]).map trim =
      [e.file, fmtNat e.part, fmtNat e.total_parts, fmt6 e.start_offset,
       fmt6 e.original_duration, fmt6 e.trim_to, fmtNat e.closest_measure,
       fmt6 e.measure_time, fmt6 e.time_lost] := by
    simp only [List.map_cons, List.map_nil]
    rw [trim_all_not_ws (fun c hc => (hfs c hc).1),
      trim_space_cons (fmtNat_not_ws e.part) (fmtNat_ne_nil e.part),
      trim_space_cons (fmtNat_not_ws e.total_parts) (fmtNat_ne_nil e.total_parts),
      trim_space_cons (fmt6_not_ws e.start_offset) (fmt6_ne_nil e.start_offset),
      trim_space_cons (fmt6_not_ws e.original_duration) (fmt6_ne_nil e.original_duration),
      trim_space_cons (fmt6_not_ws e.trim_to) (fmt6_ne_nil e.trim_to),
      trim_space_cons (fmtNat_not_ws e.closest_measure) (fmtNat_ne_nil e.closest_measure),
      trim_space_cons (fmt6_not_ws e.measure_time) (fmt6_ne_nil e.measure_time),
      trim_space_cons (fmt6_not_ws e.time_lost) (fmt6_ne_nil e.time_lost)]
  rw [hmap, if_pos (by simp)]
  simp only [List.getD_cons_zero, List.getD_cons_succ]
  rw [parseIntOpt_fmtNat, parseIntOpt_fmtNat, parseFloatOpt_fmt6, parseFloatOpt_fmt6,
    parseFloatOpt_fmt6, parseIntOpt_fmtNat, parseFloatOpt_fmt6, parseFloatOpt_fmt6]
  rfl

/-- Every line of the writer's header block is a `#` comment and is skipped
by the reader. -/
theorem load_scene_plan_header (mm : Option ℕ) (rest : List (List Char)) :
    load_scene_plan (planHeader mm ++ rest) = load_scene_plan rest := by
  rw [load_scene_plan, load_scene_plan, List.filterMap_append]
  rcases mm with - | m
  · simp [planHeader, parsePlanLine_hash]
  · by_cases hm : m ≠ 0
    · simp [planHeader, hm, parsePlanLine_hash]
    · simp [planHeader, hm, parsePlanLine_hash]

/-- Claim C4: the Plan Record codec round-trips.  Serializing any list of
`PlanEntries` whose scene ids are nonempty and free of whitespace, commas,
and `#` (true of all real `scene_*.mp4` names), and then deserializing,
yields exactly the same entries in the same order, every numeric field equal
to the original rounded to six fractional digits. -/
theorem plan_record_roundtrip (mm : Option ℕ) (entries : List SceneDatum)
    (hf : ∀ e ∈ entries, e.file ≠ [] ∧ e.file.all goodFileChar = true) :
    load_scene_plan (serializePlan mm entries) = entries.map loadedEntry := by
  rw [serializePlan, load_scene_plan_header, load_scene_plan]
  induction entries with
  | nil => simp
  | cons e t ih =>
    have he := hf e (List.mem_cons_self ..)
    have hparse := parsePlanLine_serializeEntry e he.1
      (fun c hc => (List.all_eq_true.1 he.2) c hc)
    rw [List.map_cons, List.map_cons, List.filterMap_cons, hparse,
      ih (fun x hx => hf x (List.mem_cons_of_mem _ hx))]

unseal Rat.add Rat.sub Rat.mul Rat.inv in
/-- Witness for C4: a realistic single-entry plan with `max_measures = 8`
round-trips (numeric fields land on their six-digit roundings). -/
theorem plan_record_roundtrip_witness :
    (∀ e ∈ [SceneDatum.mk "scene_001.mp4".data 1 1 0 (17/10) (3/2) (1/5) 4 (3/2)],
      e.file ≠ [] ∧ e.file.all goodFileChar = true) ∧
    load_scene_plan (serializePlan (some 8)
        [SceneDatum.mk "scene_001.mp4".data 1 1 0 (17/10) (3/2) (1/5) 4 (3/2)]) =
      [SceneDatum.mk "scene_001.mp4".data 1 1 0 (17/10) (3/2) (1/5) 4 (3/2)].map loadedEntry :=
  ⟨by decide, plan_record_roundtrip (some 8) _ (by decide)⟩

/-- Claim C6: a well-formed legacy 6-field Plan Record line (six comma-fields,
numeric fields parsing) deserializes to an entry with `part = 1`,
`total_parts = 1`, `start_offset = 0.0`, and the six fields mapped in order to
`scene_id`, `original_duration`, `trim_to`, `measure_number`, `measure_time`,
`time_lost`. -/
theorem legacy_six_field_parse (raw f0 s1 s2 s3 s4 s5 : List Char)
    (orig trimv mtime lost : ℚ) (mnum : ℤ)
    (hne : trim raw ≠ []) (hhash : ¬ (trim raw).head? = some '#')
    (hsplit : (splitOnChar ',' (trim raw)).map trim = [f0, s1, s2, s3, s4, s5])
    (h1 : parseFloatOpt s1 = some orig) (h2 : parseFloatOpt s2 = some trimv)
    (h3 : parseIntOpt s3 = some mnum) (h4 : parseFloatOpt s4 = some mtime)
    (h5 : parseFloatOpt s5 = some lost) :
    parsePlanLine raw =
      some { file := f0, part := 1, total_parts := 1, start_offset := 0,
             original_duration := orig, trim_to := trimv, measure_number := mnum,
             measure_time := mtime, time_lost := lost } := by
  simp only [parsePlanLine]
  rw [if_neg (not_or.2 ⟨hne, hhash⟩), hsplit,
    if_neg (by norm_num), if_pos (by norm_num)]
  simp only [List.getD_cons_zero, List.getD_cons_succ]
  rw [h1, h2, h3, h4, h5]

unseal Rat.add Rat.sub Rat.mul Rat.inv in
/-- Witness for C6: the legacy line
`scene_003.mp4, 12.500000, 12.0, 25, 12.0, 0.5` parses with the defaults. -/
theorem legacy_six_field_parse_witness :
    (trim "scene_003.mp4, 12.500000, 12.0, 25, 12.0, 0.5".data ≠ [] ∧
     ¬ (trim "scene_003.mp4, 12.500000, 12.0, 25, 12.0, 0.5".data).head? = some '#' ∧
     (splitOnChar ',' (trim "scene_003.mp4, 12.500000, 12.0, 25, 12.0, 0.5".data)).map trim =
       ["scene_003.mp4".data, "12.500000".data, "12.0".data, "25".data, "12.0".data,
        "0.5".data] ∧
     parseFloatOpt "12.500000".data = some (25/2) ∧
     parseIntOpt "25".data = some 25) ∧
    parsePlanLine "scene_003.mp4, 12.500000, 12.0, 25, 12.0, 0.5".data =
      some (SceneInfo.mk "scene_003.mp4".data 1 1 0 (25/2) 12 25 12 (1/2)) :=
  ⟨⟨by decide, by decide, by decide, by decide, by decide⟩,
    legacy_six_field_parse "scene_003.mp4, 12.500000, 12.0, 25, 12.0, 0.5".data
      "scene_003.mp4".data "12.500000".data "12.0".data "25".data "12.0".data "0.5".data
      (25/2) 12 12 (1/2) 25
      (by decide) (by decide) (by decide) (by decide) (by decide) (by decide)
      (by decide) (by decide)⟩

/-- Claim C10: deserialization is total and per-line: `load_scene_plan` is a
total function (the `try/except` is modelled by the `Option` parser, so no
input can raise), every returned entry has all nine fields populated (by the
`SceneInfo` type), and every returned entry is the successful parse of some
input line. -/
theorem load_scene_plan_sound (plan_lines : List (List Char)) (e : SceneInfo)
    (he : e ∈ load_scene_plan plan_lines) :
    ∃ raw ∈ plan_lines, parsePlanLine raw = some e := by
  rw [load_scene_plan] at he
  obtain ⟨raw, hraw, hparse⟩ := List.mem_filterMap.1 he
  exact ⟨raw, hraw, hparse⟩

unseal Rat.add Rat.sub Rat.mul Rat.inv in
/-- Witness for C10: a mixed file (comment, blank, malformed, data line)
yields exactly its one parseable entry, and that entry comes from its line. -/
theorem load_scene_plan_sound_witness :
    (SceneInfo.mk "scene_007.mp4".data 1 1 0 (7/2) 3 6 3 (1/2)) ∈
      load_scene_plan ["# comment".data, "".data, "oops".data,
        "scene_007.mp4, 3.500000, 3.0, 6, 3.0, 0.5".data] ∧
    ∃ raw ∈ ["# comment".data, "".data, "oops".data,
        "scene_007.mp4, 3.500000, 3.0, 6, 3.0, 0.5".data],
      parsePlanLine raw = some (SceneInfo.mk "scene_007.mp4".data 1 1 0 (7/2) 3 6 3 (1/2)) :=
  ⟨by decide, load_scene_plan_sound _ _ (by decide)⟩

end PlanLine

/-- Claim C8 (counterexample): for an empty Scene Inventory the planner takes
the early `return` — it produces `none` (no plan, no plan file), not an empty
plan `some []`. -/
theorem align_empty_inventory_not_empty_plan :
    align_scenes_to_measures [0, 1] none [] = none ∧
    align_scenes_to_measures [0, 1] none [] ≠ some [] := by decide

/-- Claim C8 (amended): for every MeasureTrack and `max_measures`
configuration, an empty Scene Inventory makes `align_scenes_to_measures`
return early with no plan at all (`none`): nothing is written, and no error is
raised (the surrounding run still exits successfully). -/
theorem align_empty_inventory_returns_early (measures : List ℚ) (max_measures : Option ℕ) :
    align_scenes_to_measures measures max_measures [] = none := by
  simp [align_scenes_to_measures]

/-- Claim C9: the final mux choice of `add_audio`: exactly when the
concatenated video exceeds the audio by more than 0.1 s, the re-encoding
command with its output limited to the audio duration (`-t audio_duration`,
`-c:v libx264`, no `-shortest`) is chosen; otherwise the stream-copy command
that stops at the shorter stream (`-c:v copy`, `-shortest`, no `-t`) is. -/
theorem add_audio_mux_choice (video_duration audio_duration : ℚ) :
    (video_duration > audio_duration + 1 / 10 →
      add_audio video_duration audio_duration =
        { t_limit := some audio_duration, video_codec := .libx264, shortest := false }) ∧
    (¬ video_duration > audio_duration + 1 / 10 →
      add_audio video_duration audio_duration =
        { t_limit := none, video_codec := .copy, shortest := true }) := by
  refine ⟨fun h => ?_, fun h => ?_⟩
  · rw [add_audio, if_pos h]
  · rw [add_audio, if_neg h]

/-- Witness for C9: both branches exercised at concrete durations. -/
theorem add_audio_mux_choice_witness :
    ((5 : ℚ) > 1 + 1 / 10 ∧
      add_audio 5 1 = { t_limit := some 1, video_codec := .libx264, shortest := false }) ∧
    (¬ (1 : ℚ) > 2 + 1 / 10 ∧
      add_audio 1 2 = { t_limit := none, video_codec := .copy, shortest := true }) :=
  ⟨⟨by norm_num, (add_audio_mux_choice 5 1).1 (by norm_num)⟩,
   ⟨by norm_num, (add_audio_mux_choice 1 2).2 (by norm_num)⟩⟩
